import Mathlib

/-!
Verification of the OpenMLDB row-codec and native type-binding layer.

Part A embeds `src/udf/literal_traits.h`: the compile-time literal type
universe, the `DataTypeTrait` family (`to_string`, `to_type_enum`,
`to_type_node`), `IsNullableTrait`, the C-call argument types, the
`Nullable` value wrapper and its equality, and the argument-type
signature function `LiteralToArgTypesSignature`.

Part B models the single-slice row codec and the RPC slice-chain codec.
Their implementations are not part of the embedded sources (only the
declarations in `src/sdk/sql_rpc_row_codec.h` are), so those definitions
are modelled from the specification's layout description.
-/

namespace OpenMLDB

/-- The `node::DataType` enum values used by `literal_traits.h`
(`kBool`, `kInt16`, ..., `kTuple`, `kRow`). The enum itself lives in
`node/sql_node.h`, outside the embedded sources; only the constructors
referenced by `literal_traits.h` are modelled. -/
inductive DataType where
  | kBool
  | kInt16
  | kInt32
  | kInt64
  | kFloat
  | kDouble
  | kTimestamp
  | kDate
  | kVarchar
  | kList
  | kOpaqueData
  | kTuple
  | kRow
deriving DecidableEq, Repr

/-- Modelled from the spec: a TypeDescriptor node. `literal_traits.h`
manipulates `node::TypeNode` (declared outside the embedded sources)
through `MakeTypeNode`, the `generics_` child list and the
`generics_nullable_` flag list; the spec states that element nullability
is recorded structurally as one flag per generic slot. A child is an
`Option` because `DataTypeTrait<AnyArg>::to_type_node` returns a null
pointer. `bytes` carries the size argument of `MakeOpaqueType`. -/
inductive TypeNode where
  | node : DataType → List (Option TypeNode) → List Bool → Nat → TypeNode

def TypeNode.base : TypeNode → DataType
  | .node b _ _ _ => b

def TypeNode.generics : TypeNode → List (Option TypeNode)
  | .node _ g _ _ => g

def TypeNode.genericsNullable : TypeNode → List Bool
  | .node _ _ gn _ => gn

/-- The closed universe of literal (native) types handled by
`DataTypeTrait` specializations in `literal_traits.h`: `AnyArg`, the
fixed scalars, `codec::Timestamp`, `codec::Date`, `codec::StringRef`,
`codec::ListRef<T>`, `Opaque<T>` (carrying `sizeof(T)`), `Nullable<T>`,
`Tuple<T...>`, and `LiteralTypedRow<T...>`. -/
inductive LiteralType where
  | anyArg
  | boolTy
  | int16Ty
  | int32Ty
  | int64Ty
  | floatTy
  | doubleTy
  | timestampTy
  | dateTy
  | stringRefTy
  | listRef (t : LiteralType)
  | opaqueTy (size : Nat)
  | nullable (t : LiteralType)
  | tuple (ts : List LiteralType)
  | typedRow (ts : List LiteralType)

/-- `IsNullableTrait<T>::value`: `false` in the generic template,
`true` in the `Nullable<T>` specialization
(`literal_traits.h` lines 87-100). -/
def IsNullableTrait : LiteralType → Bool
  | .nullable _ => true
  | _ => false

mutual

/-- `DataTypeTrait<T>::to_string()` for each specialization in
`literal_traits.h`: `"?"` for `AnyArg`, the scalar names, `"list_"`
prefixing the element name, `"opaque<sizeof(T)>"`, the unwrapped name
for `Nullable<T>` (line 348), `"tuple_"` with `"_"`-separated element
names, and `"row"`. -/
def LiteralType.to_string : LiteralType → String
  | .anyArg => "?"
  | .boolTy => "bool"
  | .int16Ty => "int16"
  | .int32Ty => "int32"
  | .int64Ty => "int64"
  | .floatTy => "float"
  | .doubleTy => "double"
  | .timestampTy => "timestamp"
  | .dateTy => "date"
  | .stringRefTy => "string"
  | .listRef t => "list_" ++ t.to_string
  | .opaqueTy n => "opaque<" ++ toString n ++ ">"
  | .nullable t => t.to_string
  | .tuple ts => "tuple_" ++ String.intercalate "_" (toStringList ts)
  | .typedRow _ => "row"

def toStringList : List LiteralType → List String
  | [] => []
  | t :: ts => t.to_string :: toStringList ts

end

/-- `DataTypeTrait<T>::to_type_enum()` for each specialization;
`AnyArg` declares none (modelled as `none`), and `Nullable<T>`
delegates to `T` (`literal_traits.h` lines 349-351). -/
def LiteralType.to_type_enum : LiteralType → Option DataType
  | .anyArg => none
  | .boolTy => some .kBool
  | .int16Ty => some .kInt16
  | .int32Ty => some .kInt32
  | .int64Ty => some .kInt64
  | .floatTy => some .kFloat
  | .doubleTy => some .kDouble
  | .timestampTy => some .kTimestamp
  | .dateTy => some .kDate
  | .stringRefTy => some .kVarchar
  | .listRef _ => some .kList
  | .opaqueTy _ => some .kOpaqueData
  | .nullable t => t.to_type_enum
  | .tuple _ => some .kTuple
  | .typedRow _ => some .kRow

/-- The brace-pack expansion `{IsNullableTrait<T>::value...}` used for
`generics_nullable_` of a tuple node. -/
def isNullableList (ts : List LiteralType) : List Bool :=
  ts.map IsNullableTrait

mutual

/-- `DataTypeTrait<T>::to_type_node(nm)` for each specialization.
`AnyArg` returns `nullptr`; `ListRef<T>` builds a `kList` node with one
generic child and sets `generics_nullable_[0] = IsNullableTrait<T>::value`
(lines 325-330); `Nullable<T>` delegates to `T` (lines 352-354);
`Tuple<T...>` builds a `kTuple` node with `generics_` the element nodes
in declaration order and `generics_nullable_` the per-element
`IsNullableTrait` values (lines 373-378). -/
def LiteralType.to_type_node : LiteralType → Option TypeNode
  | .anyArg => none
  | .boolTy => some (.node .kBool [] [] 0)
  | .int16Ty => some (.node .kInt16 [] [] 0)
  | .int32Ty => some (.node .kInt32 [] [] 0)
  | .int64Ty => some (.node .kInt64 [] [] 0)
  | .floatTy => some (.node .kFloat [] [] 0)
  | .doubleTy => some (.node .kDouble [] [] 0)
  | .timestampTy => some (.node .kTimestamp [] [] 0)
  | .dateTy => some (.node .kDate [] [] 0)
  | .stringRefTy => some (.node .kVarchar [] [] 0)
  | .listRef t => some (.node .kList [t.to_type_node] [IsNullableTrait t] 0)
  | .opaqueTy n => some (.node .kOpaqueData [] [] n)
  | .nullable t => t.to_type_node
  | .tuple ts => some (.node .kTuple (toTypeNodeList ts) (isNullableList ts) 0)
  | .typedRow _ => some (.node .kRow [] [] 0)

def toTypeNodeList : List LiteralType → List (Option TypeNode)
  | [] => []
  | t :: ts => t.to_type_node :: toTypeNodeList ts

end

theorem toStringList_eq_map (ts : List LiteralType) :
    toStringList ts = ts.map LiteralType.to_string := by
  induction ts with
  | nil => rfl
  | cons t ts ih => simp [toStringList, ih]

theorem toTypeNodeList_eq_map (ts : List LiteralType) :
    toTypeNodeList ts = ts.map LiteralType.to_type_node := by
  induction ts with
  | nil => rfl
  | cons t ts ih => simp [toTypeNodeList, ih]

/-- The `Nullable<T>` value wrapper (`literal_traits.h` lines 61-73):
a data member together with an explicit null flag. -/
structure Nullable (α : Type) where
  data : α
  is_null : Bool

def Nullable.value (x : Nullable α) : α := x.data

/-- The `Nullable(std::nullptr_t)` constructor: `data_(0), is_null_(true)`.
`zero` stands for the value-initialized data member (`0` for the generic
template, `""` in the `Nullable<StringRef>` specialization at line 76). -/
def Nullable.fromNullptr (zero : α) : Nullable α := ⟨zero, true⟩

/-- The `Nullable(const T&)` converting constructor:
`data_(t), is_null_(false)`. -/
def Nullable.ofValue (t : α) : Nullable α := ⟨t, false⟩

/-- The `Nullable()` default constructor: `is_null_(false)` and the data
member left default-initialized; `d` stands for whatever value the
default-initialized member holds. -/
def Nullable.defaultCtor (d : α) : Nullable α := ⟨d, false⟩

/-- The `Nullable<StringRef>` specialization's `nullptr` constructor
(`literal_traits.h` line 76): `data_("")`, `is_null_(true)`;
`StringRef` is modelled as `String`. -/
def nullStringRef : Nullable String := Nullable.fromNullptr ""

/-- `operator==(const Nullable<T>&, const Nullable<T>&)`
(`literal_traits.h` lines 102-109): if `x` is null the result is
`y.is_null()`, otherwise `!y.is_null() && x.value() == y.value()`. -/
def nullableEq [BEq α] (x y : Nullable α) : Bool :=
  if x.is_null then y.is_null
  else !y.is_null && (x.value == y.value)

/-- How an argument travels in the generated C call: as the value itself
or through a pointer to it. -/
inductive CCallPassing where
  | byValue (t : LiteralType)
  | byPointer (t : LiteralType)

/-- The `CCallArgType` member type of each `DataTypeTrait`
specialization: the value type itself for `bool`, `int16_t`, `int32_t`,
`int64_t`, `float`, `double` (lines 153-254), and a pointer for
`codec::Timestamp` (line 274), `codec::Date` (line 294),
`codec::StringRef` (line 305), `codec::ListRef<T>` (line 331) and
`Opaque<T>` (line 343, `T*`). The `AnyArg`, `Nullable<T>`,
`Tuple<T...>` and `LiteralTypedRow<...>` specializations declare no
`CCallArgType`, modelled as `none`. -/
def CCallArgType : LiteralType → Option CCallPassing
  | .boolTy => some (.byValue .boolTy)
  | .int16Ty => some (.byValue .int16Ty)
  | .int32Ty => some (.byValue .int32Ty)
  | .int64Ty => some (.byValue .int64Ty)
  | .floatTy => some (.byValue .floatTy)
  | .doubleTy => some (.byValue .doubleTy)
  | .timestampTy => some (.byPointer .timestampTy)
  | .dateTy => some (.byPointer .dateTy)
  | .stringRefTy => some (.byPointer .stringRefTy)
  | .listRef t => some (.byPointer (.listRef t))
  | .opaqueTy n => some (.byPointer (.opaqueTy n))
  | _ => none

/-- `LiteralToArgTypesSignature<LiteralArgTypes...>()`
(`literal_traits.h` lines 436-448): the `to_string` of each argument
type joined with `", "`. -/
def LiteralToArgTypesSignature (args : List LiteralType) : String :=
  String.intercalate ", " (args.map LiteralType.to_string)

/-- Erasing nullability at the binding level: strip every `Nullable`
wrapper from the head of a literal type. Used to state the spec's
"equal after erasing nullability" relation between signatures. -/
def eraseNullable : LiteralType → LiteralType
  | .nullable t => eraseNullable t
  | t => t

theorem to_string_eraseNullable :
    (t : LiteralType) → (eraseNullable t).to_string = t.to_string
  | .nullable t => by
      rw [eraseNullable]
      rw [show (LiteralType.nullable t).to_string = t.to_string from rfl]
      exact to_string_eraseNullable t
  | .anyArg => rfl
  | .boolTy => rfl
  | .int16Ty => rfl
  | .int32Ty => rfl
  | .int64Ty => rfl
  | .floatTy => rfl
  | .doubleTy => rfl
  | .timestampTy => rfl
  | .dateTy => rfl
  | .stringRefTy => rfl
  | .listRef _ => rfl
  | .opaqueTy _ => rfl
  | .tuple _ => rfl
  | .typedRow _ => rfl

/-- Registry build-time failures named by the spec's error taxonomy. -/
inductive RegistrationError where
  | duplicateSignature
  | unsupportedBinding
deriving DecidableEq, Repr

/-- A registry of native bindings, keyed by argument-type signature
string; the payload is an opaque binding identifier. -/
structure UdfRegistry where
  entries : List (String × Nat)
deriving DecidableEq, Repr

/-- Modelled from the spec: registering a native binding. The registry
implementation is outside the embedded sources; per the spec
(sections 4.4 and 8) a binding is keyed by its resolved argument-type
signature, computed here by `LiteralToArgTypesSignature`
(`literal_traits.h` lines 436-448), and registering a signature that is
already present fails with `DuplicateSignature`. -/
def registerBinding (r : UdfRegistry) (args : List LiteralType)
    (impl : Nat) : Except RegistrationError UdfRegistry :=
  let key := LiteralToArgTypesSignature args
  if (r.entries.map Prod.fst).contains key then
    .error .duplicateSignature
  else
    .ok ⟨(key, impl) :: r.entries⟩

theorem isNullableTrait_iff (t : LiteralType) :
    IsNullableTrait t = true ↔ ∃ w, t = .nullable w := by
  cases t <;> simp [IsNullableTrait]

/-- C2: for every native type `T`, resolving `Nullable<T>` yields the
same TypeDescriptor as resolving `T` itself — same name string, same
type enum, same type node — differing only in that `IsNullableTrait` is
`true` for `Nullable<T>` and `false` for any unwrapped type. -/
theorem nullable_resolves_like_unwrapped (t : LiteralType) :
    (LiteralType.nullable t).to_string = t.to_string ∧
    (LiteralType.nullable t).to_type_enum = t.to_type_enum ∧
    (LiteralType.nullable t).to_type_node = t.to_type_node ∧
    IsNullableTrait (.nullable t) = true ∧
    ((∀ u, t ≠ .nullable u) → IsNullableTrait t = false) := by
  refine ⟨rfl, rfl, rfl, rfl, fun h => ?_⟩
  cases t with
  | nullable u => exact absurd rfl (h u)
  | _ => rfl

/-- Closed witness for C2, instantiated at `T = int32_t`. -/
theorem nullable_resolves_like_unwrapped_witness :
    IsNullableTrait (.nullable .int32Ty) = true ∧
    IsNullableTrait .int32Ty = false :=
  ⟨(nullable_resolves_like_unwrapped .int32Ty).2.2.2.1,
   (nullable_resolves_like_unwrapped .int32Ty).2.2.2.2
     (fun _ h => LiteralType.noConfusion h)⟩

/-- C3: bindings whose resolved type sequences agree after erasing
nullability compute the same argument-type signature string, so after
one of them registers successfully the other registers under the same
key and fails with `DuplicateSignature`. -/
theorem ambiguous_signature_rejected (r r' : UdfRegistry)
    (args1 args2 : List LiteralType) (i1 i2 : Nat)
    (hsig : args1.map eraseNullable = args2.map eraseNullable)
    (h1 : registerBinding r args1 i1 = .ok r') :
    LiteralToArgTypesSignature args1 = LiteralToArgTypesSignature args2 ∧
    registerBinding r' args2 i2 = .error .duplicateSignature := by
  have hts : args1.map LiteralType.to_string = args2.map LiteralType.to_string := by
    have e1 : args1.map LiteralType.to_string
        = (args1.map eraseNullable).map LiteralType.to_string := by
      rw [List.map_map]
      exact List.map_congr_left fun a _ => (to_string_eraseNullable a).symm
    have e2 : args2.map LiteralType.to_string
        = (args2.map eraseNullable).map LiteralType.to_string := by
      rw [List.map_map]
      exact List.map_congr_left fun a _ => (to_string_eraseNullable a).symm
    rw [e1, e2, hsig]
  have hkey : LiteralToArgTypesSignature args1 = LiteralToArgTypesSignature args2 := by
    unfold LiteralToArgTypesSignature
    rw [hts]
  refine ⟨hkey, ?_⟩
  unfold registerBinding at h1 ⊢
  by_cases hc :
      (r.entries.map Prod.fst).contains (LiteralToArgTypesSignature args1)
  · simp only [hc, if_true] at h1
    exact Except.noConfusion h1
  · simp only [hc, if_false] at h1
    cases h1
    rw [← hkey]
    simp [List.contains_cons]

/-- Closed witness for C3: registering `(Nullable<int32>)` then
`(int32)` hits the same key `"int32"` and fails. -/
theorem ambiguous_signature_rejected_witness :
    LiteralToArgTypesSignature [.nullable .int32Ty] =
      LiteralToArgTypesSignature [.int32Ty] ∧
    registerBinding ⟨[("int32", 7)]⟩ [.int32Ty] 8 =
      .error .duplicateSignature :=
  ambiguous_signature_rejected ⟨[]⟩ ⟨[("int32", 7)]⟩
    [.nullable .int32Ty] [.int32Ty] 7 8 (by rfl) (by rfl)

/-- C4 counterexample: the claim says `Timestamp` and `Date` are passed
by value, but `DataTypeTrait<codec::Timestamp>::CCallArgType` is
`codec::Timestamp*` (line 274) and
`DataTypeTrait<codec::Date>::CCallArgType` is `codec::Date*`
(line 294): both are passed by pointer. -/
theorem timestamp_date_passed_by_pointer :
    CCallArgType .timestampTy = some (.byPointer .timestampTy) ∧
    CCallArgType .timestampTy ≠ some (.byValue .timestampTy) ∧
    CCallArgType .dateTy = some (.byPointer .dateTy) ∧
    CCallArgType .dateTy ≠ some (.byValue .dateTy) := by
  refine ⟨rfl, fun h => ?_, rfl, fun h => ?_⟩ <;>
    exact CCallPassing.noConfusion (Option.some.inj h)

/-- C4 amended: the generated calling convention passes the fixed
scalars `Bool`, `Int16`, `Int32`, `Int64`, `Float`, `Double` by value,
and passes `Timestamp`, `Date`, `StringRef`, `List` and `Opaque`
arguments by pointer; `AnyArg`, `Nullable`, `Tuple` and row bindings
declare no C-call argument type in this header. -/
theorem c_call_convention (t : LiteralType) (n : Nat)
    (ts : List LiteralType) :
    CCallArgType .boolTy = some (.byValue .boolTy) ∧
    CCallArgType .int16Ty = some (.byValue .int16Ty) ∧
    CCallArgType .int32Ty = some (.byValue .int32Ty) ∧
    CCallArgType .int64Ty = some (.byValue .int64Ty) ∧
    CCallArgType .floatTy = some (.byValue .floatTy) ∧
    CCallArgType .doubleTy = some (.byValue .doubleTy) ∧
    CCallArgType .timestampTy = some (.byPointer .timestampTy) ∧
    CCallArgType .dateTy = some (.byPointer .dateTy) ∧
    CCallArgType .stringRefTy = some (.byPointer .stringRefTy) ∧
    CCallArgType (.listRef t) = some (.byPointer (.listRef t)) ∧
    CCallArgType (.opaqueTy n) = some (.byPointer (.opaqueTy n)) ∧
    CCallArgType .anyArg = none ∧
    CCallArgType (.nullable t) = none ∧
    CCallArgType (.tuple ts) = none ∧
    CCallArgType (.typedRow ts) = none := by
  refine ⟨rfl, rfl, rfl, rfl, rfl, rfl, rfl, rfl, rfl, rfl, rfl, rfl, ?_, ?_, rfl⟩ <;> rfl

/-- C5: a `List<T>` descriptor records its single element-nullability
flag as `IsNullableTrait T`, and a `Tuple<T0..Tn>` descriptor records
one flag per generic slot, the flag for slot `i` being
`IsNullableTrait Ti`; the flag is `true` exactly when the slot's type
is the `Nullable` wrapper. -/
theorem element_nullability_structural (t : LiteralType)
    (ts : List LiteralType) :
    LiteralType.to_type_node (.listRef t) =
      some (.node .kList [t.to_type_node] [IsNullableTrait t] 0) ∧
    LiteralType.to_type_node (.tuple ts) =
      some (.node .kTuple (ts.map LiteralType.to_type_node)
        (ts.map IsNullableTrait) 0) ∧
    (∀ u ∈ ts, (IsNullableTrait u = true ↔ ∃ w, u = .nullable w)) ∧
    (IsNullableTrait t = true ↔ ∃ w, t = .nullable w) := by
  refine ⟨rfl, ?_, fun u _ => isNullableTrait_iff u, isNullableTrait_iff t⟩
  rw [show LiteralType.to_type_node (.tuple ts)
      = some (.node .kTuple (toTypeNodeList ts) (isNullableList ts) 0) from rfl]
  rw [toTypeNodeList_eq_map, isNullableList]

/-- Closed witness for C5, at the tuple `(int32, Nullable<string>)`:
the recorded flags are `[false, true]`. -/
theorem element_nullability_structural_witness :
    LiteralType.to_type_node (.tuple [.int32Ty, .nullable .stringRefTy]) =
      some (.node .kTuple
        [some (.node .kInt32 [] [] 0), some (.node .kVarchar [] [] 0)]
        [false, true] 0) ∧
    (IsNullableTrait (.nullable .stringRefTy) = true ↔
      ∃ w, LiteralType.nullable .stringRefTy = .nullable w) :=
  ⟨(element_nullability_structural .boolTy
      [.int32Ty, .nullable .stringRefTy]).2.1,
   (element_nullability_structural .boolTy
      [.int32Ty, .nullable .stringRefTy]).2.2.1 _
     (List.Mem.tail _ (List.Mem.head _))⟩

/-- C6: a multi-value return `Tuple<T0..Tn>` builds a descriptor whose
generic children are the resolved element descriptors in exactly
declaration order: slot `i` holds `to_type_node Ti`. -/
theorem tuple_elements_declaration_order (ts : List LiteralType) :
    ∃ nd, LiteralType.to_type_node (.tuple ts) = some nd ∧
      nd.generics = ts.map LiteralType.to_type_node ∧
      ∀ i (h : i < ts.length),
        nd.generics[i]? = some (LiteralType.to_type_node ts[i]) := by
  refine ⟨.node .kTuple (toTypeNodeList ts) (isNullableList ts) 0, rfl,
    toTypeNodeList_eq_map ts, fun i h => ?_⟩
  rw [show (TypeNode.node .kTuple (toTypeNodeList ts) (isNullableList ts)
      0).generics = toTypeNodeList ts from rfl]
  rw [toTypeNodeList_eq_map, List.getElem?_map, List.getElem?_eq_getElem h]
  rfl

/-- Closed witness for C6 at `Tuple<int64, string>`: slot 1 resolves
`string`. -/
theorem tuple_elements_declaration_order_witness :
    ∃ nd, LiteralType.to_type_node (.tuple [.int64Ty, .stringRefTy]) =
        some nd ∧
      nd.generics[1]? = some (LiteralType.to_type_node .stringRefTy) := by
  obtain ⟨nd, h1, _, h3⟩ :=
    tuple_elements_declaration_order [.int64Ty, .stringRefTy]
  exact ⟨nd, h1, h3 1 (by decide)⟩

/-- C7: equality on `Nullable<T>` holds exactly when both operands are
null, or both are non-null with equal wrapped values; a null and a
non-null value are never equal, and two nulls compare equal whatever
data members they carry. -/
theorem nullable_equality_semantics [BEq α] (x y : Nullable α) (a b : α) :
    (nullableEq x y = true ↔
      (x.is_null = true ∧ y.is_null = true) ∨
      (x.is_null = false ∧ y.is_null = false ∧ (x.value == y.value) = true)) ∧
    nullableEq ⟨a, true⟩ ⟨b, true⟩ = true ∧
    nullableEq ⟨a, true⟩ ⟨b, false⟩ = false ∧
    nullableEq ⟨a, false⟩ ⟨b, true⟩ = false := by
  refine ⟨?_, by simp [nullableEq], by simp [nullableEq], by simp [nullableEq]⟩
  obtain ⟨xd, xn⟩ := x
  obtain ⟨yd, yn⟩ := y
  cases xn <;> cases yn <;> simp [nullableEq, Nullable.value]

/-- C10: the default constructor of `Nullable` yields a non-null value
whatever the default-initialized data member holds, and the null
`Nullable<StringRef>` carries the empty string, so `value()` on it
returns `""`. -/
theorem nullable_default_and_null_string (α : Type) (d : α) :
    (Nullable.defaultCtor d).is_null = false ∧
    nullStringRef.is_null = true ∧
    nullStringRef.value = "" :=
  ⟨rfl, rfl, rfl⟩

/-! ### Byte-level helpers for the row codec

The single-slice row codec and the RPC slice-chain codec are declared in
`src/sdk/sql_rpc_row_codec.h` but implemented outside the embedded
sources, so the definitions below are modelled from the specification
(sections 4.2 and 4.3). Bytes are naturals below 256; multi-byte
integers use a fixed little-endian order as the spec requires an
explicit machine byte order. -/

/-- Modelled from the spec: little-endian encoding of `n` on `w`
bytes. -/
def toLE : Nat → Nat → List Nat
  | 0, _ => []
  | w + 1, n => n % 256 :: toLE w (n / 256)

/-- Modelled from the spec: little-endian decoding of a byte list. -/
def fromLE : List Nat → Nat
  | [] => 0
  | b :: bs => b + 256 * fromLE bs

theorem toLE_length (w n : Nat) : (toLE w n).length = w := by
  induction w generalizing n with
  | zero => rfl
  | succ w ih => simp [toLE, ih]

theorem fromLE_toLE (w n : Nat) (h : n < 256 ^ w) :
    fromLE (toLE w n) = n := by
  induction w generalizing n with
  | zero =>
    have : n = 0 := by simpa using h
    simp [this, toLE, fromLE]
  | succ w ih =>
    have hdiv : n / 256 < 256 ^ w := by
      rw [Nat.div_lt_iff_lt_mul (by norm_num)]
      calc n < 256 ^ (w + 1) := h
        _ = 256 ^ w * 256 := by ring
    rw [toLE, fromLE, ih _ hdiv, Nat.mod_add_div]

theorem toLE_lt (w n : Nat) : ∀ b ∈ toLE w n, b < 256 := by
  induction w generalizing n with
  | zero => simp [toLE]
  | succ w ih =>
    intro b hb
    rw [toLE] at hb
    rcases List.mem_cons.mp hb with h | h
    · exact h ▸ Nat.mod_lt _ (by norm_num)
    · exact ih _ _ h

/-- A packed bitmap byte built from up to eight bits, least significant
bit first. -/
def bitsToByte : List Bool → Nat
  | [] => 0
  | b :: bs => (if b then 1 else 0) + 2 * bitsToByte bs

theorem bitsToByte_testBit (bs : List Bool) (k : Nat) :
    Nat.testBit (bitsToByte bs) k = bs.getD k false := by
  induction bs generalizing k with
  | nil => simp [bitsToByte]
  | cons b bs ih =>
    cases k with
    | zero =>
      rw [bitsToByte, List.getD_cons_zero, Nat.testBit_zero]
      rcases b with _ | _ <;> simp [Nat.add_mul_mod_self_left]
    | succ k =>
      rw [bitsToByte, List.getD_cons_succ, ← ih k, Nat.testBit_add_one]
      have hb : (if b then 1 else 0) ≤ 1 := by split <;> omega
      congr 1
      omega

theorem bitsToByte_lt (bs : List Bool) : bitsToByte bs < 2 ^ bs.length := by
  induction bs with
  | nil => simp [bitsToByte]
  | cons b bs ih =>
    rw [bitsToByte]
    have : (if b then 1 else 0) ≤ 1 := by split <;> omega
    simp only [List.length_cons, pow_succ]
    omega

/-- Modelled from the spec (section 3): the closed set of wire column
types handled by the single-slice row codec. Fixed-width types store
their value in place; `stringTy` is the variable-width type whose
payload (raw bytes) lives in the variable-data area. Float and double
values are carried as their raw bit patterns, since the codec only
copies bytes. -/
inductive ColType where
  | boolTy
  | int16Ty
  | int32Ty
  | int64Ty
  | floatTy
  | doubleTy
  | timestampTy
  | dateTy
  | stringTy
deriving DecidableEq, Repr

/-- Whether the type's storage lives in the variable-data area. -/
def isVarType : ColType → Bool
  | .stringTy => true
  | _ => false

/-- Modelled from the spec (section 4.2): byte width of a column's slot
in the fixed-field area. Fixed-width types store their value in place;
the variable-width type stores a 4-byte offset plus 4-byte length
pair. -/
def fixedWidth : ColType → Nat
  | .boolTy => 1
  | .int16Ty => 2
  | .int32Ty => 4
  | .int64Ty => 8
  | .floatTy => 4
  | .doubleTy => 8
  | .timestampTy => 8
  | .dateTy => 4
  | .stringTy => 8

/-- A field value: the unsigned representation of a fixed-width value,
or the raw byte payload of a variable-width value. A null field is
`none` at the row level. -/
inductive FieldVal where
  | fixedV (n : Nat)
  | bytesV (bs : List Nat)
deriving DecidableEq, Repr

/-- A schema column: name, type and nullability
(spec section 3, Schema). -/
structure Column where
  name : String
  ty : ColType
  nullable : Bool
deriving DecidableEq, Repr

/-- A Schema is an ordered list of named columns; position is the
addressing key. -/
abbrev Schema := List Column

/-- Does one value fit one column: null only on a nullable column, a
fixed value within the slot's range on a fixed-width column, and a
byte payload on the variable-width column. -/
def valOk (c : Column) : Option FieldVal → Bool
  | none => c.nullable
  | some (.fixedV n) => !isVarType c.ty && decide (n < 256 ^ fixedWidth c.ty)
  | some (.bytesV bs) => isVarType c.ty && bs.all (· < 256)

/-- Does a value tuple conform to a schema (`SchemaMismatch` check):
same arity and each value fits its column. -/
def rowOk : Schema → List (Option FieldVal) → Bool
  | [], [] => true
  | c :: cs, x :: xs => valOk c x && rowOk cs xs
  | _, _ => false

/-- Header bytes: 4-byte total length plus 1-byte version tag
(spec section 4.2). -/
def headerSize : Nat := 5

/-- Null bitmap size in bytes: one bit per column. -/
def bitmapSize (n : Nat) : Nat := (n + 7) / 8

/-- Total width of the fixed-field area of a schema. -/
def sumWidth (S : Schema) : Nat := (S.map fun c => fixedWidth c.ty).sum

/-- Contribution of one field to the variable-data area. -/
def varLenOf : Option FieldVal → Nat
  | some (.bytesV bs) => bs.length
  | _ => 0

/-- Total size of the variable-data area for a value tuple. -/
def varTotal (v : List (Option FieldVal)) : Nat := (v.map varLenOf).sum

/-- The null bit of column `i`: set exactly when the value is null. -/
def nullBit (v : List (Option FieldVal)) (i : Nat) : Bool :=
  (v.getD i (some (.fixedV 0))).isNone

/-- The packed null bitmap of a row: `bitmapSize n` bytes, bit `i` of
byte `i / 8` (LSB first) set iff column `i` is null
(spec section 4.2). -/
def bitmapBytes (v : List (Option FieldVal)) (n : Nat) : List Nat :=
  (List.range (bitmapSize n)).map fun b =>
    bitsToByte ((List.range 8).map fun k => nullBit v (8 * b + k))

/-- Modelled from the spec (section 4.2): the fixed-field area. One slot
per column in schema order; a fixed-width value is stored in place in
little-endian order, a variable-width value stores its
(offset, length) pair, and a null column's slot is dead space (written
as zeros so that encoding is deterministic). `off` is the running
offset into the slice of the next variable payload. -/
def encodeSlots : Schema → List (Option FieldVal) → Nat → List Nat
  | [], _, _ => []
  | _ :: _, [], _ => []
  | c :: cs, x :: xs, off =>
    match x with
    | none => List.replicate (fixedWidth c.ty) 0 ++ encodeSlots cs xs off
    | some (.fixedV n) => toLE (fixedWidth c.ty) n ++ encodeSlots cs xs off
    | some (.bytesV bs) =>
        toLE 4 off ++ toLE 4 bs.length ++ encodeSlots cs xs (off + bs.length)

/-- Modelled from the spec (section 4.2): the variable-data area is the
concatenation of each non-null variable field's raw bytes in schema
order, with no padding or terminator. -/
def encodeVarArea : List (Option FieldVal) → List Nat
  | [] => []
  | some (.bytesV bs) :: xs => bs ++ encodeVarArea xs
  | _ :: xs => encodeVarArea xs

/-- The slice body after the header: null bitmap, fixed-field area,
variable-data area. -/
def encodeBody (S : Schema) (v : List (Option FieldVal)) : List Nat :=
  bitmapBytes v S.length
    ++ encodeSlots S v (headerSize + bitmapSize S.length + sumWidth S)
    ++ encodeVarArea v

/-- Encode-time failures (spec section 7). -/
inductive EncodeError where
  | schemaMismatch
  | overflowErr
deriving DecidableEq, Repr

/-- Decode-time failures (spec section 7). -/
inductive DecodeError where
  | truncated
  | sliceCountMismatch
  | typeMismatch
deriving DecidableEq, Repr

/-- Modelled from the spec (section 4.2, `Encode(schema, values)`):
fails with `SchemaMismatch` when the value tuple does not conform to
the schema, fails with `Overflow` when the total length exceeds the
4-byte length field's range, and otherwise produces the slice: 4-byte
total length, version byte `1`, null bitmap, fixed-field area,
variable-data area. -/
def Encode (S : Schema) (v : List (Option FieldVal)) :
    Except EncodeError (List Nat) :=
  if rowOk S v then
    if headerSize + (encodeBody S v).length < 256 ^ 4 then
      .ok (toLE 4 (headerSize + (encodeBody S v).length)
        ++ 1 :: encodeBody S v)
    else .error .overflowErr
  else .error .schemaMismatch

/-- Offset of column `i`'s slot in the fixed-field area of a slice. -/
def fixedOffset (S : Schema) (i : Nat) : Nat :=
  headerSize + bitmapSize S.length + sumWidth (S.take i)

/-- Bounds-checked read of `len` bytes at `off` from a slice. -/
def readBytes (slice : List Nat) (off len : Nat) : Option (List Nat) :=
  if off + len ≤ slice.length then some ((slice.drop off).take len)
  else none

/-- Placeholder column for out-of-range indices. -/
def defaultColumn : Column := ⟨"", .boolTy, false⟩

/-- The null bit of column `i` as read back from a slice's bitmap. -/
def sliceNullBit (slice : List Nat) (i : Nat) : Bool :=
  Nat.testBit (slice.getD (headerSize + i / 8) 0) (i % 8)

/-- Modelled from the spec (section 4.2, `Decode` and `RowView.Get`):
read back field `i`. The null bitmap is consulted first, so a null
column reports null whatever its slot holds; a non-null fixed-width
field is read in place, and a non-null variable-width field is read
through its bounds-checked (offset, length) pair. -/
def decodeField (S : Schema) (slice : List Nat) (i : Nat) :
    Except DecodeError (Option FieldVal) :=
  let c := S.getD i defaultColumn
  if sliceNullBit slice i then .ok none
  else if isVarType c.ty then
    match readBytes slice (fixedOffset S i) 4,
        readBytes slice (fixedOffset S i + 4) 4 with
    | some offB, some lenB =>
      match readBytes slice (fromLE offB) (fromLE lenB) with
      | some bs => .ok (some (.bytesV bs))
      | none => .error .truncated
    | _, _ => .error .truncated
  else
    match readBytes slice (fixedOffset S i) (fixedWidth c.ty) with
    | some ws => .ok (some (.fixedV (fromLE ws)))
    | none => .error .truncated

/-- Decode `count` consecutive fields starting at index `i`. -/
def decodeFields (S : Schema) (slice : List Nat) :
    Nat → Nat → Except DecodeError (List (Option FieldVal))
  | 0, _ => .ok []
  | count + 1, i =>
    match decodeField S slice i with
    | .error e => .error e
    | .ok x =>
      match decodeFields S slice count (i + 1) with
      | .error e => .error e
      | .ok rest => .ok (x :: rest)

/-- Modelled from the spec (section 4.2, `Decode(schema, slice)`):
fails with `Truncated` when the slice is shorter than
header + bitmap + fixed area, validates the header's recorded total
length and version tag, then reads every field. -/
def Decode (S : Schema) (slice : List Nat) :
    Except DecodeError (List (Option FieldVal)) :=
  if slice.length < headerSize + bitmapSize S.length + sumWidth S then
    .error .truncated
  else if fromLE (slice.take 4) = slice.length ∧ slice.getD 4 0 = 1 then
    decodeFields S slice S.length 0
  else .error .truncated


theorem rowOk_cons {c : Column} {cs : Schema} {x : Option FieldVal}
    {xs : List (Option FieldVal)} (h : rowOk (c :: cs) (x :: xs) = true) :
    valOk c x = true ∧ rowOk cs xs = true := by
  rw [rowOk, Bool.and_eq_true] at h
  exact h

theorem rowOk_length : ∀ {cs : Schema} {xs : List (Option FieldVal)},
    rowOk cs xs = true → xs.length = cs.length
  | [], [], _ => rfl
  | [], _ :: _, h => by simp [rowOk] at h
  | _ :: _, [], h => by simp [rowOk] at h
  | _ :: cs, _ :: xs, h => by
      simp only [List.length_cons]
      rw [rowOk_length (rowOk_cons h).2]

theorem rowOk_getD : ∀ {cs : Schema} {xs : List (Option FieldVal)},
    rowOk cs xs = true → ∀ {i : Nat}, i < cs.length →
    valOk (cs.getD i defaultColumn) (xs.getD i none) = true
  | [], _, _, i, hi => absurd hi (by simp)
  | _ :: _, [], h, _, _ => by simp [rowOk] at h
  | _ :: _, _ :: _, h, 0, _ => (rowOk_cons h).1
  | _ :: cs, _ :: xs, h, i + 1, hi => by
      rw [List.getD_cons_succ, List.getD_cons_succ]
      exact rowOk_getD (rowOk_cons h).2 (by simpa using hi)

theorem var_eq_string {t : ColType} (h : isVarType t = true) :
    t = .stringTy := by
  cases t <;> first | rfl | simp [isVarType] at h

theorem sumWidth_cons (c : Column) (cs : Schema) :
    sumWidth (c :: cs) = fixedWidth c.ty + sumWidth cs := by
  simp [sumWidth]

theorem sumWidth_append (a b : Schema) :
    sumWidth (a ++ b) = sumWidth a + sumWidth b := by
  simp [sumWidth]

theorem varTotal_cons (x : Option FieldVal) (xs : List (Option FieldVal)) :
    varTotal (x :: xs) = varLenOf x + varTotal xs := by
  simp [varTotal]

theorem varTotal_append (a b : List (Option FieldVal)) :
    varTotal (a ++ b) = varTotal a + varTotal b := by
  simp [varTotal]

theorem sumWidth_take_le (S : Schema) (i : Nat) :
    sumWidth (S.take i) ≤ sumWidth S := by
  conv_rhs => rw [← List.take_append_drop i S]
  rw [sumWidth_append]
  omega

theorem varTotal_take_le (v : List (Option FieldVal)) (i : Nat) :
    varTotal (v.take i) ≤ varTotal v := by
  conv_rhs => rw [← List.take_append_drop i v]
  rw [varTotal_append]
  omega

theorem sumWidth_take_succ (S : Schema) (i : Nat) (h : i < S.length) :
    sumWidth (S.take (i + 1)) =
      sumWidth (S.take i) + fixedWidth (S.getD i defaultColumn).ty := by
  rw [List.take_succ, sumWidth_append, List.getElem?_eq_getElem h]
  simp [sumWidth, List.getD_eq_getElem?_getD, List.getElem?_eq_getElem h]

theorem varTotal_take_succ (v : List (Option FieldVal)) (i : Nat)
    (h : i < v.length) :
    varTotal (v.take (i + 1)) =
      varTotal (v.take i) + varLenOf (v.getD i none) := by
  rw [List.take_succ, varTotal_append, List.getElem?_eq_getElem h]
  simp [varTotal, List.getD_eq_getElem?_getD, List.getElem?_eq_getElem h]

theorem encodeSlots_length :
    ∀ {cs : Schema} {xs : List (Option FieldVal)} (off : Nat),
    rowOk cs xs = true → (encodeSlots cs xs off).length = sumWidth cs
  | [], [], _, _ => rfl
  | [], _ :: _, _, h => by simp [rowOk] at h
  | _ :: _, [], _, h => by simp [rowOk] at h
  | c :: cs, x :: xs, off, h => by
      obtain ⟨hv, hrest⟩ := rowOk_cons h
      match x with
      | none =>
        rw [encodeSlots, List.length_append, List.length_replicate,
          encodeSlots_length off hrest, sumWidth_cons]
      | some (.fixedV n) =>
        rw [encodeSlots, List.length_append, toLE_length,
          encodeSlots_length off hrest, sumWidth_cons]
      | some (.bytesV bs) =>
        have hstr : c.ty = .stringTy := by
          simp only [valOk, Bool.and_eq_true] at hv
          exact var_eq_string hv.1
        rw [encodeSlots, List.length_append, List.length_append, toLE_length,
          toLE_length, encodeSlots_length (off + bs.length) hrest,
          sumWidth_cons, hstr]
        rfl

theorem encodeVarArea_length :
    ∀ xs : List (Option FieldVal), (encodeVarArea xs).length = varTotal xs
  | [] => rfl
  | none :: xs => by
      rw [show encodeVarArea (none :: xs) = encodeVarArea xs from rfl,
        encodeVarArea_length xs, varTotal_cons]
      simp [varLenOf]
  | some (.fixedV n) :: xs => by
      rw [show encodeVarArea (some (.fixedV n) :: xs) = encodeVarArea xs
          from rfl,
        encodeVarArea_length xs, varTotal_cons]
      simp [varLenOf]
  | some (.bytesV bs) :: xs => by
      rw [encodeVarArea, List.length_append, encodeVarArea_length xs,
        varTotal_cons]
      rfl

theorem bitmapBytes_length (v : List (Option FieldVal)) (n : Nat) :
    (bitmapBytes v n).length = bitmapSize n := by
  simp [bitmapBytes]

theorem encodeBody_length {S : Schema} {v : List (Option FieldVal)}
    (h : rowOk S v = true) :
    (encodeBody S v).length = bitmapSize S.length + sumWidth S + varTotal v := by
  rw [encodeBody, List.length_append, List.length_append, bitmapBytes_length,
    encodeSlots_length _ h, encodeVarArea_length]

theorem encodeSlots_drop_take :
    ∀ (i : Nat) (cs : Schema) (xs : List (Option FieldVal)) (off : Nat)
      (tail : List Nat), rowOk cs xs = true → i ≤ cs.length →
    (encodeSlots cs xs off ++ tail).drop (sumWidth (cs.take i))
      = encodeSlots (cs.drop i) (xs.drop i) (off + varTotal (xs.take i)) ++ tail
  | 0, cs, xs, off, tail, _, _ => by
      simp [varTotal, sumWidth]
  | i + 1, [], _, _, _, _, hle => by simp at hle
  | i + 1, _ :: _, [], _, _, h, _ => by simp [rowOk] at h
  | i + 1, c :: cs, none :: xs, off, tail, h, hle => by
      obtain ⟨hv, hrest⟩ := rowOk_cons h
      rw [List.take_succ_cons, sumWidth_cons, List.drop_succ_cons,
        List.drop_succ_cons, List.take_succ_cons, varTotal_cons,
        show varLenOf none = 0 from rfl, Nat.zero_add,
        show encodeSlots (c :: cs) (none :: xs) off
          = List.replicate (fixedWidth c.ty) 0 ++ encodeSlots cs xs off
          from rfl,
        List.append_assoc, ← List.drop_drop,
        List.drop_left' (List.length_replicate _ _)]
      exact encodeSlots_drop_take i cs xs off tail hrest (by simpa using hle)
  | i + 1, c :: cs, some (.fixedV n) :: xs, off, tail, h, hle => by
      obtain ⟨hv, hrest⟩ := rowOk_cons h
      rw [List.take_succ_cons, sumWidth_cons, List.drop_succ_cons,
        List.drop_succ_cons, List.take_succ_cons, varTotal_cons,
        show varLenOf (some (.fixedV n)) = 0 from rfl, Nat.zero_add,
        show encodeSlots (c :: cs) (some (.fixedV n) :: xs) off
          = toLE (fixedWidth c.ty) n ++ encodeSlots cs xs off from rfl,
        List.append_assoc, ← List.drop_drop,
        List.drop_left' (toLE_length _ _)]
      exact encodeSlots_drop_take i cs xs off tail hrest (by simpa using hle)
  | i + 1, c :: cs, some (.bytesV bs) :: xs, off, tail, h, hle => by
      obtain ⟨hv, hrest⟩ := rowOk_cons h
      have hstr : c.ty = .stringTy := by
        simp only [valOk, Bool.and_eq_true] at hv
        exact var_eq_string hv.1
      rw [List.take_succ_cons, sumWidth_cons, List.drop_succ_cons,
        List.drop_succ_cons, List.take_succ_cons, varTotal_cons,
        show varLenOf (some (.bytesV bs)) = bs.length from rfl,
        show encodeSlots (c :: cs) (some (.bytesV bs) :: xs) off
          = toLE 4 off ++ (toLE 4 bs.length
              ++ encodeSlots cs xs (off + bs.length)) from rfl,
        hstr, show fixedWidth .stringTy = 8 from rfl]
      have hassoc : (toLE 4 off ++ (toLE 4 bs.length
            ++ encodeSlots cs xs (off + bs.length))) ++ tail
          = (toLE 4 off ++ toLE 4 bs.length)
            ++ (encodeSlots cs xs (off + bs.length) ++ tail) := by
        simp [List.append_assoc]
      rw [hassoc, ← List.drop_drop,
        List.drop_left' (by rw [List.length_append, toLE_length, toLE_length]),
        ← Nat.add_assoc]
      exact encodeSlots_drop_take i cs xs (off + bs.length) tail hrest
        (by simpa using hle)

theorem encodeVarArea_drop :
    ∀ (i : Nat) (xs : List (Option FieldVal)), i ≤ xs.length →
    (encodeVarArea xs).drop (varTotal (xs.take i)) = encodeVarArea (xs.drop i)
  | 0, xs, _ => by simp [varTotal]
  | i + 1, [], hle => by simp at hle
  | i + 1, none :: xs, hle => by
      rw [List.take_succ_cons, varTotal_cons,
        show varLenOf none = 0 from rfl, Nat.zero_add, List.drop_succ_cons,
        show encodeVarArea (none :: xs) = encodeVarArea xs from rfl]
      exact encodeVarArea_drop i xs (by simpa using hle)
  | i + 1, some (.fixedV n) :: xs, hle => by
      rw [List.take_succ_cons, varTotal_cons,
        show varLenOf (some (.fixedV n)) = 0 from rfl, Nat.zero_add,
        List.drop_succ_cons,
        show encodeVarArea (some (.fixedV n) :: xs) = encodeVarArea xs
          from rfl]
      exact encodeVarArea_drop i xs (by simpa using hle)
  | i + 1, some (.bytesV bs) :: xs, hle => by
      rw [List.take_succ_cons, varTotal_cons,
        show varLenOf (some (.bytesV bs)) = bs.length from rfl,
        List.drop_succ_cons,
        show encodeVarArea (some (.bytesV bs) :: xs)
          = bs ++ encodeVarArea xs from rfl,
        ← List.drop_drop, List.drop_left]
      exact encodeVarArea_drop i xs (by simpa using hle)

theorem bitmap_bit_read (v : List (Option FieldVal)) (n i : Nat)
    (hi : i < n) (hv : v.length = n) (hdr tail : List Nat)
    (hhdr : hdr.length = headerSize) :
    sliceNullBit (hdr ++ (bitmapBytes v n ++ tail)) i
      = (v.getD i none).isNone := by
  have hdiv : i / 8 < bitmapSize n := by
    rw [bitmapSize]; omega
  rw [sliceNullBit, List.getD_eq_getElem?_getD,
    List.getElem?_append_right (by omega : hdr.length ≤ headerSize + i / 8),
    hhdr, Nat.add_sub_cancel_left,
    List.getElem?_append_left (by rw [bitmapBytes_length]; exact hdiv),
    bitmapBytes, List.getElem?_map, List.getElem?_range hdiv]
  rw [show Option.getD (Option.map
      (fun b => bitsToByte ((List.range 8).map fun k => nullBit v (8 * b + k)))
      (some (i / 8))) 0
    = bitsToByte ((List.range 8).map fun k => nullBit v (8 * (i / 8) + k))
    from rfl]
  rw [bitsToByte_testBit, List.getD_eq_getElem?_getD, List.getElem?_map,
    List.getElem?_range (Nat.mod_lt _ (by norm_num) : i % 8 < 8)]
  rw [show Option.getD (Option.map
      (fun k => nullBit v (8 * (i / 8) + k)) (some (i % 8))) false
    = nullBit v (8 * (i / 8) + i % 8) from rfl]
  rw [Nat.div_add_mod]
  rw [nullBit, List.getD_eq_getElem?_getD, List.getD_eq_getElem?_getD,
    List.getElem?_eq_getElem (by omega : i < v.length)]
  rfl

/-- The variable-data area's base offset inside a slice. -/
def varBase (S : Schema) : Nat :=
  headerSize + bitmapSize S.length + sumWidth S

theorem slice_shape (S : Schema) (v : List (Option FieldVal)) :
    toLE 4 (headerSize + (encodeBody S v).length) ++ 1 :: encodeBody S v
      = (toLE 4 (headerSize + (encodeBody S v).length) ++ [1])
        ++ (bitmapBytes v S.length
          ++ (encodeSlots S v (varBase S) ++ encodeVarArea v)) := by
  rw [encodeBody, varBase]
  simp [List.append_assoc, headerSize]

theorem slice_length (S : Schema) (v : List (Option FieldVal))
    (hok : rowOk S v = true) :
    (toLE 4 (headerSize + (encodeBody S v).length)
        ++ 1 :: encodeBody S v).length
      = headerSize + bitmapSize S.length + sumWidth S + varTotal v := by
  rw [List.length_append, toLE_length, List.length_cons,
    encodeBody_length hok, headerSize]
  omega

theorem slice_drop_fixedOffset (S : Schema) (v : List (Option FieldVal))
    (hok : rowOk S v = true) (i : Nat) (hi : i < S.length) :
    (toLE 4 (headerSize + (encodeBody S v).length)
        ++ 1 :: encodeBody S v).drop (fixedOffset S i)
      = encodeSlots (S.drop i) (v.drop i)
          (varBase S + varTotal (v.take i)) ++ encodeVarArea v := by
  rw [slice_shape, fixedOffset, ← List.drop_drop, ← List.drop_drop,
    List.drop_left' (by rw [List.length_append, toLE_length]; rfl),
    List.drop_left' (bitmapBytes_length v S.length),
    encodeSlots_drop_take i S v (varBase S) (encodeVarArea v) hok
      (Nat.le_of_lt hi)]

theorem slice_drop_var (S : Schema) (v : List (Option FieldVal))
    (hok : rowOk S v = true) (i : Nat) (hi : i ≤ v.length) :
    (toLE 4 (headerSize + (encodeBody S v).length)
        ++ 1 :: encodeBody S v).drop (varBase S + varTotal (v.take i))
      = encodeVarArea (v.drop i) := by
  rw [slice_shape, varBase, ← List.drop_drop, ← List.drop_drop,
    ← List.drop_drop,
    List.drop_left' (by rw [List.length_append, toLE_length]; rfl),
    List.drop_left' (bitmapBytes_length v S.length),
    List.drop_left' (encodeSlots_length
      (headerSize + bitmapSize S.length + sumWidth S) hok),
    encodeVarArea_drop i v hi]

theorem decodeField_ok (S : Schema) (v : List (Option FieldVal))
    (hok : rowOk S v = true)
    (hov : headerSize + (encodeBody S v).length < 256 ^ 4)
    (i : Nat) (hi : i < S.length) :
    decodeField S
      (toLE 4 (headerSize + (encodeBody S v).length) ++ 1 :: encodeBody S v) i
      = .ok (v.getD i none) := by
  have hvlen : v.length = S.length := rowOk_length hok
  have hiv : i < v.length := by omega
  have hv := rowOk_getD hok hi
  have hc : S.getD i defaultColumn = S[i] := by
    rw [List.getD_eq_getElem?_getD, List.getElem?_eq_getElem hi]
    rfl
  have hxv : v.getD i none = v[i] := by
    rw [List.getD_eq_getElem?_getD, List.getElem?_eq_getElem hiv]
    rfl
  have hSd : S.drop i = S.getD i defaultColumn :: S.drop (i + 1) := by
    rw [hc]
    exact List.drop_eq_getElem_cons hi
  have hvd : v.drop i = v.getD i none :: v.drop (i + 1) := by
    rw [hxv]
    exact List.drop_eq_getElem_cons hiv
  have hbit : sliceNullBit
      (toLE 4 (headerSize + (encodeBody S v).length) ++ 1 :: encodeBody S v) i
      = (v.getD i none).isNone := by
    rw [slice_shape]
    exact bitmap_bit_read v S.length i hi hvlen _ _
      (by rw [List.length_append, toLE_length]; rfl)
  have hslen : (toLE 4 (headerSize + (encodeBody S v).length)
      ++ 1 :: encodeBody S v).length
      = headerSize + bitmapSize S.length + sumWidth S + varTotal v :=
    slice_length S v hok
  have htot : headerSize + (encodeBody S v).length
      = headerSize + bitmapSize S.length + sumWidth S + varTotal v := by
    rw [encodeBody_length hok]; omega
  have hwle : sumWidth (S.take i) + fixedWidth (S.getD i defaultColumn).ty
      ≤ sumWidth S := by
    rw [← sumWidth_take_succ S i hi]
    exact sumWidth_take_le S (i + 1)
  cases hx : v.getD i none with
  | none =>
    rw [decodeField, hbit, hx]
    rfl
  | some fv =>
    rw [hx] at hv hvd
    cases fv with
    | fixedV m =>
      have hvm : isVarType (S.getD i defaultColumn).ty = false
          ∧ m < 256 ^ fixedWidth (S.getD i defaultColumn).ty := by
        simpa [valOk] using hv
      have hbound : fixedOffset S i
          + fixedWidth (S.getD i defaultColumn).ty
          ≤ (toLE 4 (headerSize + (encodeBody S v).length)
            ++ 1 :: encodeBody S v).length := by
        rw [hslen, fixedOffset]
        omega
      have hread : readBytes
          (toLE 4 (headerSize + (encodeBody S v).length)
            ++ 1 :: encodeBody S v)
          (fixedOffset S i) (fixedWidth (S.getD i defaultColumn).ty)
          = some (toLE (fixedWidth (S.getD i defaultColumn).ty) m) := by
        rw [readBytes, if_pos hbound, slice_drop_fixedOffset S v hok i hi,
          hSd, hvd,
          show encodeSlots (S.getD i defaultColumn :: S.drop (i + 1))
              (some (.fixedV m) :: v.drop (i + 1))
              (varBase S + varTotal (v.take i))
            = toLE (fixedWidth (S.getD i defaultColumn).ty) m
              ++ encodeSlots (S.drop (i + 1)) (v.drop (i + 1))
                (varBase S + varTotal (v.take i)) from rfl,
          List.append_assoc, List.take_left' (toLE_length _ _)]
      rw [decodeField, hbit, hx]
      simp only [Option.isNone_some, Bool.false_eq_true, if_false,
        hvm.1, hread, fromLE_toLE _ _ hvm.2]
    | bytesV bs =>
      have hvar : isVarType (S.getD i defaultColumn).ty = true := by
        simp only [valOk, Bool.and_eq_true] at hv
        exact hv.1
      have hw8 : fixedWidth (S.getD i defaultColumn).ty = 8 := by
        rw [var_eq_string hvar]
        rfl
      have hvtsucc : varTotal (v.take (i + 1))
          = varTotal (v.take i) + bs.length := by
        rw [varTotal_take_succ v i hiv, hx]
        rfl
      have hvtle : varTotal (v.take (i + 1)) ≤ varTotal v :=
        varTotal_take_le v (i + 1)
      have hoffb : varBase S + varTotal (v.take i) < 256 ^ 4 := by
        have := varTotal_take_le v i
        rw [htot] at hov
        rw [varBase]
        omega
      have hlenb : bs.length < 256 ^ 4 := by
        rw [htot] at hov
        omega
      have hbound4 : fixedOffset S i + 4
          ≤ (toLE 4 (headerSize + (encodeBody S v).length)
            ++ 1 :: encodeBody S v).length := by
        rw [hslen, fixedOffset]
        rw [hw8] at hwle
        omega
      have hbound44 : fixedOffset S i + 4 + 4
          ≤ (toLE 4 (headerSize + (encodeBody S v).length)
            ++ 1 :: encodeBody S v).length := by
        rw [hslen, fixedOffset]
        rw [hw8] at hwle
        omega
      have hdropfo : (toLE 4 (headerSize + (encodeBody S v).length)
          ++ 1 :: encodeBody S v).drop (fixedOffset S i)
          = toLE 4 (varBase S + varTotal (v.take i))
            ++ (toLE 4 bs.length
              ++ (encodeSlots (S.drop (i + 1)) (v.drop (i + 1))
                  (varBase S + varTotal (v.take i) + bs.length)
                ++ encodeVarArea v)) := by
        rw [slice_drop_fixedOffset S v hok i hi, hSd, hvd,
          show encodeSlots (S.getD i defaultColumn :: S.drop (i + 1))
              (some (.bytesV bs) :: v.drop (i + 1))
              (varBase S + varTotal (v.take i))
            = toLE 4 (varBase S + varTotal (v.take i))
              ++ (toLE 4 bs.length
                ++ encodeSlots (S.drop (i + 1)) (v.drop (i + 1))
                  (varBase S + varTotal (v.take i) + bs.length)) from rfl]
        simp [List.append_assoc]
      have hread1 : readBytes
          (toLE 4 (headerSize + (encodeBody S v).length)
            ++ 1 :: encodeBody S v) (fixedOffset S i) 4
          = some (toLE 4 (varBase S + varTotal (v.take i))) := by
        rw [readBytes, if_pos hbound4, hdropfo,
          List.take_left' (toLE_length _ _)]
      have hread2 : readBytes
          (toLE 4 (headerSize + (encodeBody S v).length)
            ++ 1 :: encodeBody S v) (fixedOffset S i + 4) 4
          = some (toLE 4 bs.length) := by
        rw [readBytes, if_pos hbound44, ← List.drop_drop, hdropfo,
          List.drop_left' (toLE_length _ _),
          List.take_left' (toLE_length _ _)]
      have hread3 : readBytes
          (toLE 4 (headerSize + (encodeBody S v).length)
            ++ 1 :: encodeBody S v)
          (varBase S + varTotal (v.take i)) bs.length = some bs := by
        have hb : varBase S + varTotal (v.take i) + bs.length
            ≤ (toLE 4 (headerSize + (encodeBody S v).length)
              ++ 1 :: encodeBody S v).length := by
          rw [hslen, varBase]
          omega
        rw [readBytes, if_pos hb,
          slice_drop_var S v hok i (Nat.le_of_lt hiv), hvd,
          show encodeVarArea (some (.bytesV bs) :: v.drop (i + 1))
            = bs ++ encodeVarArea (v.drop (i + 1)) from rfl,
          List.take_left]
      rw [decodeField, hbit, hx]
      simp only [Option.isNone_some, Bool.false_eq_true, if_false, hvar,
        if_true, hread1, hread2, fromLE_toLE _ _ hoffb,
        fromLE_toLE _ _ hlenb, hread3]

theorem decodeFields_ok (S : Schema) (v : List (Option FieldVal))
    (hok : rowOk S v = true)
    (hov : headerSize + (encodeBody S v).length < 256 ^ 4) :
    ∀ (count i : Nat), count + i = S.length →
    decodeFields S
      (toLE 4 (headerSize + (encodeBody S v).length) ++ 1 :: encodeBody S v)
      count i
      = .ok (v.drop i)
  | 0, i, _ => by
      rw [decodeFields,
        List.drop_eq_nil_of_le (by rw [rowOk_length hok]; omega)]
  | count + 1, i, hci => by
      have hi : i < S.length := by omega
      rw [decodeFields, decodeField_ok S v hok hov i hi,
        decodeFields_ok S v hok hov count (i + 1) (by omega)]
      have hiv : i < v.length := by rw [rowOk_length hok]; omega
      have hvk : v.drop i = v.getD i none :: v.drop (i + 1) := by
        rw [List.getD_eq_getElem?_getD, List.getElem?_eq_getElem hiv,
          Option.getD_some]
        exact List.drop_eq_getElem_cons hiv
      rw [hvk]

/-- C1: for every schema `S` and conforming value tuple `v` (conformance
is checked inside `Encode`, which otherwise fails with
`SchemaMismatch`), decoding the slice produced by `Encode S v` yields
exactly the field values of `v`, null flags included: a null field
decodes to `none` (the bitmap is consulted before the dead slot bytes)
and a non-null field decodes to its encoded value. -/
theorem encode_decode_roundtrip (S : Schema) (v : List (Option FieldVal))
    (slice : List Nat) (h : Encode S v = .ok slice) :
    Decode S slice = .ok v := by
  unfold Encode at h
  split at h
  case isFalse hok => exact Except.noConfusion h
  case isTrue hok =>
    split at h
    case isFalse hov => exact Except.noConfusion h
    case isTrue hov =>
      injection h with h'
      subst h'
      have hslen := slice_length S v hok
      have htot : headerSize + (encodeBody S v).length
          = headerSize + bitmapSize S.length + sumWidth S + varTotal v := by
        rw [encodeBody_length hok]
        omega
      rw [Decode, if_neg (by omega)]
      rw [if_pos ?hdr]
      case hdr =>
        constructor
        · rw [List.take_left' (toLE_length _ _), fromLE_toLE _ _ hov,
            hslen, htot]
        · rw [List.getD_eq_getElem?_getD,
            List.getElem?_append_right (by rw [toLE_length]),
            toLE_length]
          simp
      rw [decodeFields_ok S v hok hov S.length 0 (by omega), List.drop_zero]

/-- Closed witness for C1 at the spec's example schema
`[id: Int32, name: Nullable<String>]`: the encodings of `(1, "ab")` and
of `(2, null)` both decode back to their original values, null flag
included. -/
theorem encode_decode_roundtrip_witness :
    Decode [⟨"id", .int32Ty, false⟩, ⟨"name", .stringTy, true⟩]
        [20, 0, 0, 0, 1, 0, 1, 0, 0, 0, 18, 0, 0, 0, 2, 0, 0, 0, 97, 98]
      = .ok [some (.fixedV 1), some (.bytesV [97, 98])] ∧
    Decode [⟨"id", .int32Ty, false⟩, ⟨"name", .stringTy, true⟩]
        [18, 0, 0, 0, 1, 2, 2, 0, 0, 0, 0, 0, 0, 0, 0, 0, 0, 0]
      = .ok [some (.fixedV 2), none] :=
  ⟨encode_decode_roundtrip _ _ _ (by rfl),
   encode_decode_roundtrip _ _ _ (by rfl)⟩

/-- C9: encoding is a pure function of the schema and the logical value
tuple, so two calls on identical logical input produce byte-identical
slices. -/
theorem encode_deterministic (S : Schema) (v w : List (Option FieldVal))
    (h : v = w) :
    Encode S v = Encode S w ∧
    ∀ s1 s2, Encode S v = .ok s1 → Encode S w = .ok s2 → s1 = s2 := by
  subst h
  refine ⟨rfl, fun s1 s2 h1 h2 => ?_⟩
  rw [h1] at h2
  injection h2

/-- Closed witness for C9: two runs on `(7 : int32)` produce the same
bytes. -/
theorem encode_deterministic_witness :
    Encode [⟨"id", .int32Ty, false⟩] [some (.fixedV 7)]
        = Encode [⟨"id", .int32Ty, false⟩] [some (.fixedV 7)] ∧
    ([10, 0, 0, 0, 1, 0, 7, 0, 0, 0] : List Nat)
        = [10, 0, 0, 0, 1, 0, 7, 0, 0, 0] :=
  ⟨(encode_deterministic [⟨"id", .int32Ty, false⟩]
      [some (.fixedV 7)] [some (.fixedV 7)] rfl).1,
   (encode_deterministic [⟨"id", .int32Ty, false⟩]
      [some (.fixedV 7)] [some (.fixedV 7)] rfl).2
     [10, 0, 0, 0, 1, 0, 7, 0, 0, 0] [10, 0, 0, 0, 1, 0, 7, 0, 0, 0]
     (by rfl) (by rfl)⟩

/-- Modelled from the spec (section 4.3, `DecodeChain`): parse `k`
length-prefixed slices from a window of bytes. Running out of window
bytes before all `k` length-prefixes are read is `SliceCountMismatch`;
a declared length exceeding the remaining window is `Truncated`; after
the `k`-th slice the window must be consumed exactly, any surplus being
a `SliceCountMismatch` framing error. -/
def parseSlices : Nat → List Nat → Except DecodeError (List (List Nat))
  | 0, window =>
    if window.isEmpty then .ok [] else .error .sliceCountMismatch
  | k + 1, window =>
    if window.length < 4 then .error .sliceCountMismatch
    else
      if (window.drop 4).length < fromLE (window.take 4) then
        .error .truncated
      else
        match parseSlices k ((window.drop 4).drop (fromLE (window.take 4))) with
        | .error e => .error e
        | .ok tl => .ok ((window.drop 4).take (fromLE (window.take 4)) :: tl)

/-- Modelled from the spec: `DecodeRpcRow(buf, offset, size, slice_num,
row)` is declared in `src/sdk/sql_rpc_row_codec.h` but implemented
outside the embedded sources. Per spec section 4.3 it reads `sliceNum`
consecutive length-prefixed slices spanning exactly `size` bytes from
`off` of the buffer chain (modelled as the chain's byte contents), and
fails with `Truncated` when fewer than `size` bytes are available from
`off`. -/
def DecodeRpcRow (chain : List Nat) (off size sliceNum : Nat) :
    Except DecodeError (List (List Nat)) :=
  if chain.length < off + size then .error .truncated
  else parseSlices sliceNum ((chain.drop off).take size)

theorem parseSlices_ok_facts :
    ∀ (k : Nat) (w : List Nat) (slices : List (List Nat)),
    parseSlices k w = .ok slices →
    slices.length = k ∧ (slices.map fun s => 4 + s.length).sum = w.length
  | 0, w, slices, h => by
      rw [parseSlices] at h
      by_cases he : w.isEmpty
      · rw [if_pos he] at h
        injection h with h'
        subst h'
        rw [List.isEmpty_iff] at he
        subst he
        exact ⟨rfl, rfl⟩
      · rw [if_neg he] at h
        exact Except.noConfusion h
  | k + 1, w, slices, h => by
      rw [parseSlices] at h
      by_cases h4 : w.length < 4
      · rw [if_pos h4] at h
        exact Except.noConfusion h
      · rw [if_neg h4] at h
        by_cases hlen : (w.drop 4).length < fromLE (w.take 4)
        · rw [if_pos hlen] at h
          exact Except.noConfusion h
        · rw [if_neg hlen] at h
          cases hres : parseSlices k ((w.drop 4).drop (fromLE (w.take 4))) with
          | error e =>
            rw [hres] at h
            exact Except.noConfusion h
          | ok tl =>
            rw [hres] at h
            injection h with h'
            subst h'
            obtain ⟨hl, hsum⟩ := parseSlices_ok_facts k _ tl hres
            refine ⟨by simp [hl], ?_⟩
            simp only [List.map_cons, List.sum_cons, hsum,
              List.length_take, List.length_drop]
            simp only [not_lt] at h4 hlen
            rw [List.length_drop] at hlen
            omega

theorem parseSlices_err :
    ∀ (k : Nat) (w : List Nat) (e : DecodeError),
    parseSlices k w = .error e →
    e = .truncated ∨ e = .sliceCountMismatch
  | 0, w, e, h => by
      rw [parseSlices] at h
      by_cases he : w.isEmpty
      · rw [if_pos he] at h
        exact Except.noConfusion h
      · rw [if_neg he] at h
        injection h with h'
        exact Or.inr h'.symm
  | k + 1, w, e, h => by
      rw [parseSlices] at h
      by_cases h4 : w.length < 4
      · rw [if_pos h4] at h
        injection h with h'
        exact Or.inr h'.symm
      · rw [if_neg h4] at h
        by_cases hlen : (w.drop 4).length < fromLE (w.take 4)
        · rw [if_pos hlen] at h
          injection h with h'
          exact Or.inl h'.symm
        · rw [if_neg hlen] at h
          cases hres : parseSlices k ((w.drop 4).drop (fromLE (w.take 4))) with
          | error e' =>
            rw [hres] at h
            injection h with h'
            exact parseSlices_err k _ e (h' ▸ hres)
          | ok tl =>
            rw [hres] at h
            exact Except.noConfusion h

/-- C8: a multi-slice decode `DecodeRpcRow(chain, offset, size,
sliceNum)` succeeds only when exactly `sliceNum` length-prefixed slices
span exactly `size` bytes: on success each decoded slice's length
equals its declared prefix value and the prefixed extents sum to
`size`; fewer than `size` bytes available from `offset` is a
`Truncated` error; and every failure is a `Truncated` or
`SliceCountMismatch` error carrying no row at all. -/
theorem decode_rpc_row_exact (chain : List Nat) (off size k : Nat) :
    (∀ slices, DecodeRpcRow chain off size k = .ok slices →
      slices.length = k
        ∧ (slices.map fun s => 4 + s.length).sum = size
        ∧ off + size ≤ chain.length) ∧
    (chain.length < off + size →
      DecodeRpcRow chain off size k = .error .truncated) ∧
    (∀ e, DecodeRpcRow chain off size k = .error e →
      e = .truncated ∨ e = .sliceCountMismatch) := by
  refine ⟨?_, ?_, ?_⟩
  · intro slices h
    rw [DecodeRpcRow] at h
    by_cases hb : chain.length < off + size
    · rw [if_pos hb] at h
      exact Except.noConfusion h
    · rw [if_neg hb] at h
      obtain ⟨h1, h2⟩ := parseSlices_ok_facts k _ slices h
      refine ⟨h1, ?_, by omega⟩
      rw [h2, List.length_take, List.length_drop]
      omega
  · intro hb
    rw [DecodeRpcRow, if_pos hb]
  · intro e h
    rw [DecodeRpcRow] at h
    by_cases hb : chain.length < off + size
    · rw [if_pos hb] at h
      injection h with h'
      exact Or.inl h'.symm
    · rw [if_neg hb] at h
      exact parseSlices_err k _ e h

/-- Closed witness for C8: a two-slice chain (`"ab"` then `"c"`) of 11
bytes decodes with the declared extents summing exactly to the size. -/
theorem decode_rpc_row_exact_witness :
    ([[97, 98], [99]] : List (List Nat)).length = 2
      ∧ (([[97, 98], [99]] : List (List Nat)).map fun s => 4 + s.length).sum
          = 11
      ∧ 0 + 11 ≤ ([2, 0, 0, 0, 97, 98, 1, 0, 0, 0, 99] : List Nat).length :=
  (decode_rpc_row_exact [2, 0, 0, 0, 97, 98, 1, 0, 0, 0, 99] 0 11 2).1
    [[97, 98], [99]] (by rfl)

end OpenMLDB
